import Mathlib

/-!
Shallow embedding of the read-scoring and selection core of the
Fast5-to-Fastq repository (`fastq_to_fastq.py` and `fast5_to_fastq.py`).

Modelling conventions:
* byte strings (read names, sequences, quality strings, HDF5 path names)
  are `List Nat` of byte / character-code values;
* Python floats are modelled as exact rationals (the specification's
  "under exact arithmetic" reading);
* a Python exception escaping a function is modelled as `none` in an
  `Option` result.
-/

namespace F2F

/-- Score Decoder: one quality symbol decodes to `q - 33`
(`fastq_to_fastq.py` line 142, `fast5_to_fastq.py` line 175). -/
def decode (q : Nat) : Int := (q : Int) - 33

/-- Decode a whole quality string (`[q - 33 for q in quals]`). -/
def qscores (quals : List Nat) : List Int := quals.map decode

/-- Exact value of Python's `statistics.mean` on a list of integers.
Only meaningful for non-empty lists; `statistics.mean` raises
`StatisticsError` on an empty list, which callers model with `Option`. -/
def intMean (l : List Int) : ℚ := (l.sum : ℚ) / (l.length : ℚ)

/-- `get_mean_qscore` (`fastq_to_fastq.py` lines 128-135): mean decoded
score over the whole string, `0` for the empty string (the code's
`ZeroDivisionError` handler). -/
def get_mean_qscore (quals : List Nat) : ℚ :=
  if quals = [] then 0 else intMean (qscores quals)

/-- The loop of `get_min_window_qscore` (`fastq_to_fastq.py` lines
148-153): slide the window `fuel` more times, the next slide leaving
position `i`, with running window mean `current` and minimum seen
`minv`. -/
def slideMin (qs : List Int) (w : Nat) : Nat → Nat → ℚ → ℚ → ℚ
  | 0, _, _, minv => minv
  | fuel + 1, i, current, minv =>
    let current2 := current + (((qs.getD (i + w) 0 - qs.getD i 0 : Int) : ℚ) / (w : ℚ))
    slideMin qs w fuel (i + 1) current2 (if current2 < minv then current2 else minv)

/-- `get_min_window_qscore` (`fastq_to_fastq.py` lines 138-154; the
near-identical copy at `fast5_to_fastq.py` lines 171-186 uses `min`
instead of an `if` and computes the same value): the minimum mean decoded
quality over a sliding window.  `none` models the `StatisticsError` that
`statistics.mean` raises when the first slice `quals[:window_size]` is
empty. -/
def get_min_window_qscore (quals : List Nat) (window_size : Nat) : Option ℚ :=
  let qs := qscores quals
  if qs.take window_size = [] then none
  else
    let current := intMean (qs.take window_size)
    if qs.length < window_size + 1 then some current
    else some (slideMin qs window_size (qs.length - window_size) 0 current current)

/-- `check_filters` (`fastq_to_fastq.py` lines 157-166), the Filter
Evaluator: short-circuit threshold checks in the source's order.  A
threshold equal to `0` is "unset" (Python falsiness).  `none` models the
exception that escapes when the sliding-window scan is reached with an
empty quality string. -/
def check_filters (seq quals : List Nat) (min_length : Nat) (min_mean_qual : ℚ)
    (min_qual_window : ℚ) (window_size : Nat) : Option (Bool × Nat) :=
  if seq = [] then some (false, 0)
  else if min_mean_qual ≠ 0 ∧ get_mean_qscore quals < min_mean_qual then some (false, 0)
  else if min_length ≠ 0 ∧ seq.length < min_length then some (false, 0)
  else if min_qual_window ≠ 0 then
    match get_min_window_qscore quals window_size with
    | none => none
    | some s => if s < min_qual_window then some (false, 0) else some (true, seq.length)
  else some (true, seq.length)

/-- Specification-side definition, from the Window Scanner contract: the
sum of the decoded scores in the window of length `m` starting at
position `i`. -/
def winSum (qs : List Int) (i m : Nat) : Int :=
  ∑ j ∈ Finset.range m, qs.getD (i + j) 0

/-- Specification-side definition: the arithmetic mean score of the
window of length `m` starting at position `i`. -/
def winMean (qs : List Int) (i m : Nat) : ℚ :=
  ((winSum qs i m : Int) : ℚ) / (m : ℚ)

/-- Python's `<=` on byte strings / ASCII strings: lexicographic
comparison of the code sequences. -/
def lexLe : List Nat → List Nat → Bool
  | [], _ => true
  | _ :: _, [] => false
  | a :: as, b :: bs => if a < b then true else if b < a then false else lexLe as bs

/-- The 3-tuple `(min_window_qual, length, read_name)` built at
`fastq_to_fastq.py` line 170 and sorted descending at lines 49-51. -/
@[ext]
structure SelKey where
  score : ℚ
  len : Nat
  name : List Nat
deriving DecidableEq

/-- Python's descending tuple comparison used by
`sorted(..., reverse=True)`: `keyGe a b` holds when `a` is greater than
or equal to `b` in the lexicographic order on `(score, len, name)`. -/
def keyGe (a b : SelKey) : Bool :=
  if b.score < a.score then true
  else if a.score < b.score then false
  else if b.len < a.len then true
  else if a.len < b.len then false
  else lexLe b.name a.name

/-- `keyGe` as a relation, for `List.insertionSort`. -/
def keyGeR : SelKey → SelKey → Prop := fun a b => keyGe a b = true

instance : DecidableRel keyGeR := fun a b => inferInstanceAs (Decidable (_ = true))

/-- A parsed FASTQ read: `(name, sequence, qualities)` as loaded by
`load_fastq` (`fastq_to_fastq.py` lines 177-196). -/
structure FRead where
  name : List Nat
  seq : List Nat
  quals : List Nat
deriving DecidableEq

/-- `min_window_qual_and_length` (`fastq_to_fastq.py` lines 169-170):
the selection key of one read; note the source uses `len(quals)`, not
`len(seq)`.  `none` models the exception for an empty quality string. -/
def min_window_qual_and_length (window_size : Nat) (r : FRead) : Option SelKey :=
  (get_min_window_qscore r.quals window_size).map fun s => ⟨s, r.quals.length, r.name⟩

/-- Total variant of `min_window_qual_and_length`, equal to it whenever
the quality string is non-empty and the window size is positive. -/
def readKey (window_size : Nat) (r : FRead) : SelKey :=
  ⟨(get_min_window_qscore r.quals window_size).getD 0, r.quals.length, r.name⟩

/-- The greedy accumulation loop of `fastq_to_fastq.py` lines 52-59:
walk the sorted keys with running total `tot`, current threshold `thr`
and accumulated kept names `good`; stop after the first key that pushes
the running total strictly past `target`.  Returns the reported
threshold, the kept-name collection and the final running total. -/
def selWalk (target : Nat) : List SelKey → Nat → ℚ → List (List Nat) → ℚ × List (List Nat) × Nat
  | [], tot, thr, good => (thr, good, tot)
  | k :: rest, tot, thr, good =>
    let tot2 := tot + k.len
    let good2 := k.name :: good
    if target < tot2 then (k.score, good2, tot2)
    else selWalk target rest tot2 k.score good2

/-- The Target-Size Selector: the `args.target_bases` block of `main`
(`fastq_to_fastq.py` lines 42-65) applied to the reads that passed the
filters, whose total passing length (`total_bases`, line 30-36) is the
sum of the sequence lengths.  Result: `(kept reads, reported threshold,
reported total bases, target-unreachable flag)`; `none` models an
exception escaping the key computation. -/
def selectForTarget (window_size : Nat) (target : Option Nat) (reads : List FRead) :
    Option (List FRead × ℚ × Nat × Bool) :=
  let total := (reads.map fun r => r.seq.length).sum
  match target with
  | none => some (reads, 0, total, false)
  | some t =>
    if t = 0 then some (reads, 0, total, false)
    else if total < t then some (reads, 0, total, true)
    else
      match reads.mapM (min_window_qual_and_length window_size) with
      | none => none
      | some keys =>
        let sortedKeys := List.insertionSort keyGeR keys
        let res := selWalk t sortedKeys 0 0 []
        some (reads.filter (fun r => decide (r.name ∈ res.2.1)), res.1, res.2.2, false)

/-- Specification-side definition: cumulative length of the first `j`
keys of a (sorted) key list. -/
def cumLens (ks : List SelKey) (j : Nat) : Nat :=
  ((ks.take j).map SelKey.len).sum

/-- Number of keys the greedy walk `selWalk` consumes before stopping
(proof-side mirror of the walk, used to characterise it). -/
def walkCount (target : Nat) : List SelKey → Nat → Nat
  | [], _ => 0
  | k :: rest, tot =>
    if target < tot + k.len then 1 else 1 + walkCount target rest (tot + k.len)

/-- The descending-sorted key list the Target-Size Selector ranks by
(`fastq_to_fastq.py` lines 49-51). -/
def sortedKeys (w : Nat) (reads : List FRead) : List SelKey :=
  List.insertionSort keyGeR (reads.map (readKey w))

/-- One named HDF5 location of a FAST5 file, as seen by the Basecall
Variant Resolver: the path name (character codes) together with the
quality line (line 4) of the FASTQ value stored there.  This is the
spec's `BasecallCandidate`; extracting the quality line from the stored
bytes is the container reader's job. -/
structure HNode where
  tag : List Nat
  qline : List Nat
deriving DecidableEq

/-- Python `str.upper` on one ASCII character code. -/
def upChar (c : Nat) : Nat := if 97 ≤ c ∧ c ≤ 122 then c - 32 else c

/-- Python `str.upper` on an ASCII string. -/
def upper (s : List Nat) : List Nat := s.map upChar

/-- Character codes of `FASTQ`. -/
def fastqCodes : List Nat := [70, 65, 83, 84, 81]

/-- Character codes of `BASECALLED_2D`. -/
def twoDCodes : List Nat := [66, 65, 83, 69, 67, 65, 76, 76, 69, 68, 95, 50, 68]

/-- Character codes of `TEMPLATE`. -/
def templateCodes : List Nat := [84, 69, 77, 80, 76, 65, 84, 69]

/-- Character codes of `COMPLEMENT`. -/
def complementCodes : List Nat := [67, 79, 77, 80, 76, 69, 77, 69, 78, 84]

/-- Python substring test `pat in s` (contiguous substring). -/
def containsSub : List Nat → List Nat → Bool
  | [], pat => pat.isEmpty
  | a :: rest, pat => pat.isPrefixOf (a :: rest) || containsSub rest pat

/-- The candidate test of `fast5_to_fastq.py` line 125:
`x.upper().endswith('FASTQ')`. -/
def endsWithFastq (t : List Nat) : Bool := fastqCodes.isSuffixOf (upper t)

/-- Tag comparison used when sorting HDF5 locations (Python `sorted` on
path strings). -/
def tagLe : HNode → HNode → Prop := fun a b => lexLe a.tag b.tag = true

instance : DecidableRel tagLe := fun a b => inferInstanceAs (Decidable (_ = true))

/-- Specification-side definition: the quality-bearing candidates (HDF5
names whose upper-cased path ends in `FASTQ`). -/
def fastqCandidates (names : List HNode) : List HNode :=
  names.filter fun x => endsWithFastq x.tag

/-- Specification-side definition: the `TwoD` candidate group. -/
def groupTwoD (names : List HNode) : List HNode :=
  (fastqCandidates names).filter fun x => containsSub (upper x.tag) twoDCodes

/-- Specification-side definition: the `Template` candidate group. -/
def groupTemplate (names : List HNode) : List HNode :=
  (fastqCandidates names).filter fun x => containsSub (upper x.tag) templateCodes

/-- Specification-side definition: the `Complement` candidate group. -/
def groupComplement (names : List HNode) : List HNode :=
  (fastqCandidates names).filter fun x => containsSub (upper x.tag) complementCodes

/-- `get_mean_score` (`fast5_to_fastq.py` lines 115-117): mean decoded
score of the stored FASTQ's quality line; `none` models the
`StatisticsError` raised on an empty line. -/
def get_mean_score (n : HNode) : Option ℚ :=
  if n.qline = [] then none else some (intMean (qscores n.qline))

/-- `get_best_fastq_hdf5_location` (`fast5_to_fastq.py` lines 120-158),
the Basecall Variant Resolver.  Result `some (some c)`: location `c`
chosen; `some none`: Python `None` (no FASTQ location at all); `none`:
an exception escaped (mean of an empty quality line). -/
def get_best_fastq_hdf5_location (names : List HNode) : Option (Option HNode) :=
  let bl := List.insertionSort tagLe (fastqCandidates names)
  let twoD := bl.filter fun x => containsSub (upper x.tag) twoDCodes
  let tmpl := bl.filter fun x => containsSub (upper x.tag) templateCodes
  let comp := bl.filter fun x => containsSub (upper x.tag) complementCodes
  match twoD.getLast? with
  | some t => some (some t)
  | none =>
    match tmpl.getLast?, comp.getLast? with
    | some tl, some cl =>
      match get_mean_score tl, get_mean_score cl with
      | some mt, some mc => some (some (if mc ≤ mt then tl else cl))
      | _, _ => none
    | some tl, none => some (some tl)
    | none, some cl => some (some cl)
    | none, none => some bl.getLast?

/-- Specification-side definition: `c` is the lexicographically-last
element of the candidate group `l`. -/
def isLexLast (c : HNode) (l : List HNode) : Prop :=
  c ∈ l ∧ ∀ d ∈ l, lexLe d.tag c.tag = true

/-- Concrete read `a`: 100 bases, constant quality symbol 63 (score 30);
one of the three reads of the specification's Selector test instance. -/
def readA : FRead := ⟨[97], List.replicate 100 65, List.replicate 100 63⟩

/-- Concrete read `b`: 100 bases, constant quality symbol 53 (score 20). -/
def readB : FRead := ⟨[98], List.replicate 100 65, List.replicate 100 53⟩

/-- Concrete read `c`: 100 bases, constant quality symbol 43 (score 10). -/
def readC : FRead := ⟨[99], List.replicate 100 65, List.replicate 100 43⟩

/-- Concrete read named `a`, 2 bases, constant score 10 (duplicate-name
test input). -/
def dupRead1 : FRead := ⟨[97], [65, 65], [43, 43]⟩

/-- Concrete read also named `a`, 1 base, score 0 (duplicate-name test
input). -/
def dupRead2 : FRead := ⟨[97], [65], [33]⟩

/-- Concrete HDF5 location `TEMPLATE_FASTQ` whose FASTQ value has an
empty quality line. -/
def tmplNode : HNode := ⟨templateCodes ++ (95 :: fastqCodes), []⟩

/-- Concrete HDF5 location `COMPLEMENT_FASTQ` whose FASTQ value has an
empty quality line. -/
def compNode : HNode := ⟨complementCodes ++ (95 :: fastqCodes), []⟩

/-- Concrete HDF5 location `TEMPLATE_FASTQ` with a one-symbol quality
line. -/
def tmplNodeW : HNode := ⟨templateCodes ++ (95 :: fastqCodes), [40]⟩

lemma length_qscores (quals : List Nat) : (qscores quals).length = quals.length := by
  simp [qscores]

lemma sum_take_getD (l : List Int) : ∀ m : Nat, m ≤ l.length → (l.take m).sum = winSum l 0 m := by
  induction l with
  | nil =>
    intro m hm
    have hm0 : m = 0 := by simpa using hm
    subst hm0
    simp [winSum]
  | cons a tl ih =>
    intro m hm
    cases m with
    | zero => simp [winSum]
    | succ k =>
      have hk : k ≤ tl.length := by simpa using hm
      have h1 : ((a :: tl).take (k + 1)).sum = a + (tl.take k).sum := by simp
      rw [h1, ih k hk]
      unfold winSum
      rw [Finset.sum_range_succ']
      simp [List.getD_cons_succ, List.getD_cons_zero]
      ring

lemma winSum_shift (l : List Int) (i w : Nat) :
    winSum l (i + 1) w = winSum l i w + (l.getD (i + w) 0 - l.getD i 0) := by
  have h := Finset.sum_range_succ' (fun j => l.getD (i + j) 0) w
  have h2 := Finset.sum_range_succ (fun j => l.getD (i + j) 0) w
  unfold winSum
  have h3 : ∀ j ∈ Finset.range w, l.getD (i + 1 + j) 0 = l.getD (i + (j + 1)) 0 := by
    intro j _
    congr 1
    omega
  rw [Finset.sum_congr rfl h3]
  simp only [Nat.add_zero] at h h2 ⊢
  omega

lemma winMean_shift (l : List Int) (i w : Nat) :
    winMean l (i + 1) w = winMean l i w + ((l.getD (i + w) 0 - l.getD i 0 : Int) : ℚ) / (w : ℚ) := by
  unfold winMean
  rw [winSum_shift]
  push_cast
  ring

lemma slideMin_le (qs : List Int) (w : Nat) :
    ∀ (fuel i : Nat) (current minv : ℚ), current = winMean qs i w →
      slideMin qs w fuel i current minv ≤ minv ∧
        ∀ j, i < j → j ≤ i + fuel → slideMin qs w fuel i current minv ≤ winMean qs j w := by
  intro fuel
  induction fuel with
  | zero =>
    intro i current minv _
    refine ⟨le_of_eq rfl, ?_⟩
    intro j h1 h2
    exact absurd (lt_of_lt_of_le h1 h2) (by omega)
  | succ f ih =>
    intro i current minv hcur
    have hcur2 : current + (((qs.getD (i + w) 0 - qs.getD i 0 : Int) : ℚ) / (w : ℚ)) =
        winMean qs (i + 1) w := by
      rw [hcur, winMean_shift]
    simp only [slideMin]
    set current2 := current + (((qs.getD (i + w) 0 - qs.getD i 0 : Int) : ℚ) / (w : ℚ)) with hc2
    set minv2 := if current2 < minv then current2 else minv with hm2
    have hmin1 : minv2 ≤ minv := by
      rw [hm2]
      split <;> [linarith; exact le_refl _]
    have hmin2 : minv2 ≤ current2 := by
      rw [hm2]
      split <;> [exact le_refl _; linarith [not_lt.mp (by assumption : ¬ current2 < minv)]]
    obtain ⟨ha, hb⟩ := ih (i + 1) current2 minv2 hcur2
    refine ⟨le_trans ha hmin1, ?_⟩
    intro j h1 h2
    rcases Nat.lt_or_ge (i + 1) j with hj | hj
    · exact hb j (by omega) (by omega)
    · have : j = i + 1 := by omega
      subst this
      calc slideMin qs w f (i + 1) current2 minv2 ≤ minv2 := ha
        _ ≤ current2 := hmin2
        _ = winMean qs (i + 1) w := hcur2

lemma slideMin_attained (qs : List Int) (w : Nat) :
    ∀ (fuel i : Nat) (current minv : ℚ), current = winMean qs i w →
      slideMin qs w fuel i current minv = minv ∨
        ∃ j, i < j ∧ j ≤ i + fuel ∧ slideMin qs w fuel i current minv = winMean qs j w := by
  intro fuel
  induction fuel with
  | zero =>
    intro i current minv _
    exact Or.inl rfl
  | succ f ih =>
    intro i current minv hcur
    have hcur2 : current + (((qs.getD (i + w) 0 - qs.getD i 0 : Int) : ℚ) / (w : ℚ)) =
        winMean qs (i + 1) w := by
      rw [hcur, winMean_shift]
    simp only [slideMin]
    set current2 := current + (((qs.getD (i + w) 0 - qs.getD i 0 : Int) : ℚ) / (w : ℚ)) with hc2
    set minv2 := if current2 < minv then current2 else minv with hm2
    by_cases hlt : current2 < minv
    · have hm2e : minv2 = current2 := by rw [hm2, if_pos hlt]
      rcases ih (i + 1) current2 minv2 hcur2 with h | ⟨j, hj1, hj2, hj3⟩
      · exact Or.inr ⟨i + 1, by omega, by omega, by rw [h, hm2e, ← hcur2]⟩
      · exact Or.inr ⟨j, by omega, by omega, hj3⟩
    · have hm2e : minv2 = minv := by rw [hm2, if_neg hlt]
      rcases ih (i + 1) current2 minv2 hcur2 with h | ⟨j, hj1, hj2, hj3⟩
      · exact Or.inl (by rw [h, hm2e])
      · exact Or.inr ⟨j, by omega, by omega, hj3⟩

lemma gmwq_eq_min (quals : List Nat) (w : Nat) (hq : quals ≠ []) (hw : 0 < w) :
    ∃ s, get_min_window_qscore quals w = some s ∧
      (∀ i, i + min w quals.length ≤ quals.length →
        s ≤ winMean (qscores quals) i (min w quals.length)) ∧
      ∃ i, i + min w quals.length ≤ quals.length ∧
        s = winMean (qscores quals) i (min w quals.length) := by
  set qs := qscores quals with hqs
  have hlen : qs.length = quals.length := length_qscores quals
  have hne : qs ≠ [] := by
    simp [hqs, qscores]
    exact hq
  have htake : qs.take w ≠ [] := by
    rw [Ne, List.take_eq_nil_iff]
    push_neg
    exact ⟨by omega, hne⟩
  rcases le_or_lt quals.length w with hc | hc
  · -- the whole string is the only window
    have hm : min w quals.length = quals.length := by omega
    have htakeall : qs.take w = qs := List.take_of_length_le (by omega)
    have hbranch : qs.length < w + 1 := by omega
    refine ⟨intMean (qs.take w), ?_, ?_, ?_⟩
    · unfold get_min_window_qscore
      rw [← hqs, if_neg (by simpa using htake), if_pos hbranch]
    · intro i hi
      have hi0 : i = 0 := by omega
      subst hi0
      rw [hm, htakeall]
      unfold intMean winMean
      rw [← sum_take_getD qs quals.length (by omega), List.take_of_length_le (by omega), hlen]
    · refine ⟨0, by omega, ?_⟩
      rw [hm, htakeall]
      unfold intMean winMean
      rw [← sum_take_getD qs quals.length (by omega), List.take_of_length_le (by omega), hlen]
  · -- at least one slide happens
    have hm : min w quals.length = w := by omega
    have hcurr : intMean (qs.take w) = winMean qs 0 w := by
      unfold intMean winMean
      rw [← sum_take_getD qs w (by omega), List.length_take]
      congr 1
      simp
      omega
    have hbranch : ¬ qs.length < w + 1 := by omega
    have hres : get_min_window_qscore quals w =
        some (slideMin qs w (qs.length - w) 0 (intMean (qs.take w)) (intMean (qs.take w))) := by
      unfold get_min_window_qscore
      rw [← hqs, if_neg (by simpa using htake), if_neg hbranch]
    refine ⟨_, hres, ?_, ?_⟩
    · intro i hi
      rw [hm] at hi ⊢
      obtain ⟨ha, hb⟩ := slideMin_le qs w (qs.length - w) 0 (intMean (qs.take w))
        (intMean (qs.take w)) hcurr
      rcases Nat.eq_zero_or_pos i with hi0 | hipos
      · subst hi0
        exact le_trans ha (le_of_eq hcurr)
      · exact hb i hipos (by omega)
    · rw [hm]
      rcases slideMin_attained qs w (qs.length - w) 0 (intMean (qs.take w))
          (intMean (qs.take w)) hcurr with h | ⟨j, hj1, hj2, hj3⟩
      · exact ⟨0, by omega, by rw [h, hcurr]⟩
      · exact ⟨j, by omega, hj3⟩

lemma get_mean_qscore_eq_winMean (quals : List Nat) (hq : quals ≠ []) :
    get_mean_qscore quals = winMean (qscores quals) 0 quals.length := by
  unfold get_mean_qscore winMean intMean
  rw [if_neg hq]
  rw [← sum_take_getD (qscores quals) quals.length (by rw [length_qscores])]
  rw [List.take_of_length_le (by rw [length_qscores]), length_qscores]

lemma getD_replicate (n i : Nat) (x : Int) (h : i < n) :
    (List.replicate n x).getD i 0 = x := by
  rw [List.getD, List.get?_eq_getElem?, List.getElem?_eq_getElem (by simpa using h)]
  simp

lemma winMean_replicate (n i m : Nat) (x : Int) (hm : 0 < m) (hle : i + m ≤ n) :
    winMean (List.replicate n x) i m = (x : ℚ) := by
  unfold winMean winSum
  have h : ∀ j ∈ Finset.range m, (List.replicate n x).getD (i + j) 0 = x := by
    intro j hj
    rw [Finset.mem_range] at hj
    exact getD_replicate n (i + j) x (by omega)
  rw [Finset.sum_congr rfl h, Finset.sum_const, Finset.card_range]
  push_cast
  field_simp

lemma gmwq_replicate (n c w : Nat) (hn : 0 < n) (hw : 0 < w) :
    get_min_window_qscore (List.replicate n c) w = some ((c : ℚ) - 33) := by
  have hq : List.replicate n c ≠ [] := by
    simp [List.replicate_eq_nil_iff]
    omega
  obtain ⟨s, hs, _, i, hi, hival⟩ := gmwq_eq_min (List.replicate n c) w hq hw
  rw [hs]
  congr 1
  rw [List.length_replicate] at hi hival
  rw [hival]
  have hqs : qscores (List.replicate n c) = List.replicate n (decode c) := by
    simp [qscores]
  rw [hqs]
  rw [winMean_replicate n i (min w n) (decode c) (by simp; omega) (by simpa using hi)]
  unfold decode
  push_cast
  ring

lemma sum_range_mul_decomp (f : Nat → Int) (k m : Nat) :
    ∑ j ∈ Finset.range (k * m), f j =
      ∑ t ∈ Finset.range k, ∑ j ∈ Finset.range m, f (t * m + j) := by
  induction k with
  | zero => simp
  | succ p ih =>
    have hmul : (p + 1) * m = p * m + m := by ring
    rw [hmul, Finset.sum_range_add, ih, Finset.sum_range_succ]

lemma winSum_tiles (l : List Int) (m k : Nat) (h : l.length = k * m) :
    ∑ t ∈ Finset.range k, winSum l (t * m) m = l.sum := by
  have htot : l.sum = winSum l 0 (k * m) := by
    rw [← h, ← sum_take_getD l l.length (le_refl _), List.take_length]
  rw [htot]
  unfold winSum
  simp only [Nat.zero_add]
  rw [sum_range_mul_decomp (fun j => l.getD j 0) k m]

lemma gmwq_le_mean_of_dvd (quals : List Nat) (w : Nat) (hq : quals ≠ []) (hw : 0 < w)
    (hdvd : min w quals.length ∣ quals.length) :
    ∃ s, get_min_window_qscore quals w = some s ∧ s ≤ get_mean_qscore quals := by
  obtain ⟨s, hs, hle, _⟩ := gmwq_eq_min quals w hq hw
  refine ⟨s, hs, ?_⟩
  set qs := qscores quals with hqs
  set n := quals.length with hn
  set m := min w n with hm
  have hn0 : 0 < n := by
    rw [hn]
    exact List.length_pos.mpr hq
  have hm0 : 0 < m := by
    rw [hm]
    simp
    omega
  obtain ⟨k, hk⟩ := hdvd
  have hk0 : 0 < k := by
    rcases Nat.eq_zero_or_pos k with h0 | h0
    · subst h0
      omega
    · exact h0
  have hlen : qs.length = n := length_qscores quals
  have htile : ∑ t ∈ Finset.range k, winSum qs (t * m) m = qs.sum := by
    apply winSum_tiles
    rw [hlen, hk]
    ring
  have hstep : ∀ t, t < k → s * (m : ℚ) ≤ ((winSum qs (t * m) m : Int) : ℚ) := by
    intro t ht
    have h1 : (t + 1) * m ≤ k * m := Nat.mul_le_mul_right m (by omega)
    have h2 : t * m + m = (t + 1) * m := by ring
    have h3 : k * m = n := by rw [hk]; ring
    have hwin : t * m + m ≤ n := by omega
    have := hle (t * m) (by omega)
    unfold winMean at this
    rw [le_div_iff (by exact_mod_cast hm0)] at this
    exact this
  have hsum : s * (n : ℚ) ≤ ((qs.sum : Int) : ℚ) := by
    have h1 : ∑ _t ∈ Finset.range k, s * (m : ℚ) ≤
        ∑ t ∈ Finset.range k, ((winSum qs (t * m) m : Int) : ℚ) := by
      apply Finset.sum_le_sum
      intro t ht
      exact hstep t (Finset.mem_range.mp ht)
    rw [Finset.sum_const, Finset.card_range, nsmul_eq_mul] at h1
    have h2 : ((qs.sum : Int) : ℚ) = ∑ t ∈ Finset.range k, ((winSum qs (t * m) m : Int) : ℚ) := by
      rw [← htile]
      push_cast
      ring
    rw [h2]
    have hkn : s * (n : ℚ) = (k : ℚ) * (s * (m : ℚ)) := by
      rw [hk]
      push_cast
      ring
    rw [hkn]
    exact h1
  have hgm : get_mean_qscore quals = ((qs.sum : Int) : ℚ) / (n : ℚ) := by
    unfold get_mean_qscore intMean
    rw [if_neg hq]
    rw [show (qscores quals) = qs from rfl, hlen]
  rw [hgm, le_div_iff (by exact_mod_cast hn0)]
  exact hsum

lemma lexLe_refl : ∀ l : List Nat, lexLe l l = true
  | [] => rfl
  | a :: as => by
    unfold lexLe
    rw [if_neg (lt_irrefl a), if_neg (lt_irrefl a)]
    exact lexLe_refl as

lemma lexLe_total : ∀ a b : List Nat, lexLe a b = true ∨ lexLe b a = true := by
  intro a
  induction a with
  | nil => intro b; exact Or.inl rfl
  | cons x xs ih =>
    intro b
    cases b with
    | nil => exact Or.inr rfl
    | cons y ys =>
      unfold lexLe
      rcases Nat.lt_trichotomy x y with h | h | h
      · left
        rw [if_pos h]
      · subst h
        simp only [if_neg (lt_irrefl x)]
        exact ih ys
      · right
        rw [if_pos h]

lemma lexLe_trans : ∀ a b c : List Nat,
    lexLe a b = true → lexLe b c = true → lexLe a c = true := by
  intro a
  induction a with
  | nil => intro b c _ _; rfl
  | cons x xs ih =>
    intro b c hab hbc
    cases b with
    | nil => simp [lexLe] at hab
    | cons y ys =>
      cases c with
      | nil => simp [lexLe] at hbc
      | cons z zs =>
        unfold lexLe at hab hbc ⊢
        split_ifs at hab hbc ⊢ <;>
          first
            | rfl
            | omega
            | exact ih ys zs hab hbc
            | simp_all

lemma lexLe_antisymm : ∀ a b : List Nat,
    lexLe a b = true → lexLe b a = true → a = b := by
  intro a
  induction a with
  | nil =>
    intro b hab hba
    cases b with
    | nil => rfl
    | cons y ys => simp [lexLe] at hba
  | cons x xs ih =>
    intro b hab hba
    cases b with
    | nil => simp [lexLe] at hab
    | cons y ys =>
      unfold lexLe at hab hba
      split_ifs at hab hba <;>
        first
          | omega
          | (rw [ih ys hab hba]; congr 1; omega)
          | simp_all

lemma keyGe_total (a b : SelKey) : keyGe a b = true ∨ keyGe b a = true := by
  unfold keyGe
  split_ifs <;>
    first
      | (left; rfl)
      | (right; rfl)
      | exact lexLe_total b.name a.name
      | linarith
      | omega

lemma keyGe_trans (a b c : SelKey) (h1 : keyGe a b = true) (h2 : keyGe b c = true) :
    keyGe a c = true := by
  unfold keyGe at h1 h2 ⊢
  split_ifs at h1 h2 ⊢ <;>
    first
      | rfl
      | exact lexLe_trans c.name b.name a.name h2 h1
      | linarith
      | omega
      | simp_all

lemma keyGe_antisymm (a b : SelKey) (h1 : keyGe a b = true) (h2 : keyGe b a = true) :
    a = b := by
  unfold keyGe at h1 h2
  split_ifs at h1 h2 <;>
    first
      | linarith
      | omega
      | (apply SelKey.ext <;>
          first
            | linarith
            | omega
            | exact lexLe_antisymm a.name b.name h2 h1)
      | simp_all

instance : IsTotal SelKey keyGeR := ⟨keyGe_total⟩

instance : IsTrans SelKey keyGeR := ⟨keyGe_trans⟩

instance : IsAntisymm SelKey keyGeR := ⟨keyGe_antisymm⟩

instance : IsTotal HNode tagLe := ⟨fun a b => lexLe_total a.tag b.tag⟩

instance : IsTrans HNode tagLe := ⟨fun _ _ _ h1 h2 => lexLe_trans _ _ _ h1 h2⟩

lemma getLast?_getD_cons {α : Type} : ∀ (l : List α) (a d : α),
    ((a :: l).getLast?).getD d = l.getLast?.getD a
  | [], _, _ => rfl
  | b :: l2, a, d => by
    rw [List.getLast?_cons_cons]
    rw [getLast?_getD_cons l2 b d, getLast?_getD_cons l2 b a]

lemma cumLens_zero (ks : List SelKey) : cumLens ks 0 = 0 := by
  simp [cumLens]

lemma cumLens_nil (j : Nat) : cumLens [] j = 0 := by
  simp [cumLens]

lemma cumLens_cons_succ (k : SelKey) (ks : List SelKey) (j : Nat) :
    cumLens (k :: ks) (j + 1) = k.len + cumLens ks j := by
  simp [cumLens]

lemma selWalk_eq (t : Nat) : ∀ (ks : List SelKey) (tot : Nat) (thr : ℚ) (good : List (List Nat)),
    selWalk t ks tot thr good =
      (((ks.take (walkCount t ks tot)).map SelKey.score).getLast?.getD thr,
        ((ks.take (walkCount t ks tot)).map SelKey.name).reverse ++ good,
        tot + cumLens ks (walkCount t ks tot)) := by
  intro ks
  induction ks with
  | nil =>
    intro tot thr good
    simp [selWalk, walkCount, cumLens]
  | cons k rest ih =>
    intro tot thr good
    simp only [selWalk, walkCount]
    by_cases h : t < tot + k.len
    · rw [if_pos h, if_pos h]
      simp [cumLens]
    · rw [if_neg h, if_neg h]
      rw [ih (tot + k.len) k.score (k.name :: good)]
      have htake : (k :: rest).take (1 + walkCount t rest (tot + k.len)) =
          k :: rest.take (walkCount t rest (tot + k.len)) := by
        rw [Nat.add_comm]
        rfl
      rw [htake]
      refine congrArg₂ _ ?_ (congrArg₂ _ ?_ ?_)
      · rw [List.map_cons, getLast?_getD_cons]
      · simp
      · have := cumLens_cons_succ k rest (walkCount t rest (tot + k.len))
        rw [Nat.add_comm 1 (walkCount t rest (tot + k.len))]
        omega

lemma walkCount_le_length (t : Nat) : ∀ (ks : List SelKey) (tot : Nat),
    walkCount t ks tot ≤ ks.length := by
  intro ks
  induction ks with
  | nil => intro tot; simp [walkCount]
  | cons k rest ih =>
    intro tot
    rw [walkCount]
    split
    · simp
    · have := ih (tot + k.len)
      simp
      omega

lemma walkCount_pos (t : Nat) (k : SelKey) (rest : List SelKey) (tot : Nat) :
    0 < walkCount t (k :: rest) tot := by
  rw [walkCount]
  split <;> omega

lemma walkCount_prefix_le (t : Nat) : ∀ (ks : List SelKey) (tot : Nat), tot ≤ t →
    ∀ j, j < walkCount t ks tot → tot + cumLens ks j ≤ t := by
  intro ks
  induction ks with
  | nil =>
    intro tot htot j hj
    rw [walkCount] at hj
    omega
  | cons k rest ih =>
    intro tot htot j hj
    rw [walkCount] at hj
    by_cases h : t < tot + k.len
    · rw [if_pos h] at hj
      have hj0 : j = 0 := by omega
      subst hj0
      rw [cumLens_zero]
      omega
    · rw [if_neg h] at hj
      cases j with
      | zero =>
        rw [cumLens_zero]
        omega
      | succ j2 =>
        rw [cumLens_cons_succ]
        have := ih (tot + k.len) (by omega) j2 (by omega)
        omega

lemma walkCount_exceeds_or (t : Nat) : ∀ (ks : List SelKey) (tot : Nat), tot ≤ t →
    t < tot + cumLens ks (walkCount t ks tot) ∨
      (walkCount t ks tot = ks.length ∧ tot + cumLens ks (walkCount t ks tot) ≤ t) := by
  intro ks
  induction ks with
  | nil =>
    intro tot htot
    right
    rw [walkCount]
    simp [cumLens_nil]
    omega
  | cons k rest ih =>
    intro tot htot
    rw [walkCount]
    by_cases h : t < tot + k.len
    · left
      rw [if_pos h]
      have h1 : cumLens (k :: rest) 1 = k.len := by
        have h2 := cumLens_cons_succ k rest 0
        rw [cumLens_zero] at h2
        simpa using h2
      omega
    · rw [if_neg h]
      have hrec := ih (tot + k.len) (by omega)
      rw [Nat.add_comm 1 (walkCount t rest (tot + k.len))]
      rw [cumLens_cons_succ]
      rcases hrec with hrec | ⟨hlen, hle⟩
      · left
        omega
      · right
        constructor
        · simp [hlen]
        · omega

lemma mwql_eq_readKey (w : Nat) (r : FRead) (hq : r.quals ≠ []) (hw : 0 < w) :
    min_window_qual_and_length w r = some (readKey w r) := by
  obtain ⟨s, hs, -, -⟩ := gmwq_eq_min r.quals w hq hw
  unfold min_window_qual_and_length readKey
  rw [hs]
  rfl

lemma mapM_keys (w : Nat) : ∀ (reads : List FRead), (∀ r ∈ reads, r.quals ≠ []) → 0 < w →
    reads.mapM (min_window_qual_and_length w) = some (reads.map (readKey w)) := by
  intro reads
  induction reads with
  | nil => intro _ _; rfl
  | cons r rs ih =>
    intro h hw
    rw [List.mapM_cons]
    rw [mwql_eq_readKey w r (h r (by simp)) hw, ih (fun x hx => h x (by simp [hx])) hw]
    rfl

lemma nodup_name_inj (reads : List FRead) (hnd : (reads.map FRead.name).Nodup)
    (r r' : FRead) (hr : r ∈ reads) (hr' : r' ∈ reads) (h : r.name = r'.name) : r = r' :=
  List.inj_on_of_nodup_map hnd hr hr' h

lemma selectForTarget_spec (w t : Nat) (reads : List FRead)
    (hw : 0 < w) (ht : 0 < t)
    (hq : ∀ r ∈ reads, r.quals ≠ [])
    (hnd : (reads.map FRead.name).Nodup)
    (htot : t ≤ (reads.map fun r => r.seq.length).sum) :
    ∃ kept thr tot,
      selectForTarget w (some t) reads = some (kept, thr, tot, false) ∧
      ∃ c, c ≤ reads.length ∧
        (∀ j, j < c → cumLens (sortedKeys w reads) j ≤ t) ∧
        (t < cumLens (sortedKeys w reads) c ∨
          (c = reads.length ∧ cumLens (sortedKeys w reads) c ≤ t)) ∧
        kept = reads.filter (fun r => decide (readKey w r ∈ (sortedKeys w reads).take c)) ∧
        (∃ lastK, ((sortedKeys w reads).take c).getLast? = some lastK ∧ thr = lastK.score) ∧
        tot = cumLens (sortedKeys w reads) c := by
  have hmm := mapM_keys w reads hq hw
  have hperm : List.Perm (sortedKeys w reads) (reads.map (readKey w)) :=
    List.perm_insertionSort keyGeR _
  have hsklen : (sortedKeys w reads).length = reads.length := by
    rw [hperm.length_eq, List.length_map]
  have hreads_ne : reads ≠ [] := by
    intro hnil
    subst hnil
    simp at htot
    omega
  have hsk_ne : sortedKeys w reads ≠ [] := by
    intro hnil
    have := hsklen
    rw [hnil] at this
    simp at this
    exact hreads_ne (List.length_eq_zero.mp this.symm)
  set sk := sortedKeys w reads with hsk
  set c := walkCount t sk 0 with hc
  have hc_pos : 0 < c := by
    rw [hc]
    cases hskc : sk with
    | nil => exact absurd hskc hsk_ne
    | cons k rest => exact walkCount_pos t k rest 0
  have hc_le : c ≤ reads.length := by
    rw [hc, ← hsklen]
    exact walkCount_le_length t sk 0
  have hwalk := selWalk_eq t sk 0 0 []
  have hsel : selectForTarget w (some t) reads =
      some (reads.filter (fun r => decide (r.name ∈ (selWalk t sk 0 0 []).2.1)),
        (selWalk t sk 0 0 []).1, (selWalk t sk 0 0 []).2.2, false) := by
    simp only [selectForTarget]
    rw [if_neg (by omega : ¬ t = 0),
      if_neg (by omega : ¬ (reads.map fun r => r.seq.length).sum < t), hmm]
    rfl
  have htake_ne : sk.take c ≠ [] := by
    rw [Ne, List.take_eq_nil_iff]
    push_neg
    exact ⟨by omega, hsk_ne⟩
  obtain ⟨lastK, hlastK⟩ := Option.isSome_iff_exists.mp (List.getLast?_isSome.mpr htake_ne)
  have hthr : (selWalk t sk 0 0 []).1 = lastK.score := by
    rw [hwalk]
    simp only
    rw [List.getLast?_map, hlastK]
    rfl
  have hfil : reads.filter (fun r => decide (r.name ∈ (selWalk t sk 0 0 []).2.1)) =
      reads.filter (fun r => decide (readKey w r ∈ sk.take c)) := by
    apply List.filter_congr
    intro r hr
    rw [hwalk]
    simp only [decide_eq_decide, List.append_nil, List.mem_reverse, List.mem_map]
    constructor
    · rintro ⟨k, hk, hkname⟩
      have hk2 : k ∈ sk := List.take_subset _ _ hk
      have hk3 : k ∈ reads.map (readKey w) := hperm.mem_iff.mp hk2
      obtain ⟨r2, hr2, hk4⟩ := List.mem_map.mp hk3
      have hname2 : r2.name = r.name := by
        rw [← hkname, ← hk4]
        rfl
      have hrr : r2 = r := nodup_name_inj reads hnd r2 r hr2 hr hname2
      subst hrr
      rw [hk4]
      exact hk
    · intro hk
      exact ⟨readKey w r, hk, rfl⟩
  refine ⟨_, _, _, by rw [hsel, hfil, hthr], c, hc_le, ?_, ?_, rfl, ⟨lastK, hlastK, rfl⟩, ?_⟩
  · intro j hj
    have := walkCount_prefix_le t sk 0 (by omega) j (hc ▸ hj)
    omega
  · have := walkCount_exceeds_or t sk 0 (by omega)
    rw [← hc] at this
    rcases this with h | ⟨h1, h2⟩
    · left
      omega
    · right
      exact ⟨by omega, by omega⟩
  · rw [hwalk]
    simp

lemma selectForTarget_noop (w : Nat) (reads : List FRead) :
    selectForTarget w none reads =
      some (reads, 0, (reads.map fun r => r.seq.length).sum, false) ∧
    selectForTarget w (some 0) reads =
      some (reads, 0, (reads.map fun r => r.seq.length).sum, false) ∧
    ∀ t, (reads.map fun r => r.seq.length).sum < t →
      selectForTarget w (some t) reads =
        some (reads, 0, (reads.map fun r => r.seq.length).sum, true) := by
  refine ⟨rfl, ?_, ?_⟩
  · simp [selectForTarget]
  · intro t hlt
    have ht0 : ¬ t = 0 := by omega
    simp only [selectForTarget]
    rw [if_neg ht0, if_pos hlt]

lemma selectForTarget_perm (w : Nat) (tg : Option Nat) (reads1 reads2 : List FRead)
    (hp : List.Perm reads1 reads2) (hw : 0 < w)
    (hq : ∀ r ∈ reads1, r.quals ≠ []) :
    ∃ k1 t1 tot1 f1 k2 t2 tot2 f2,
      selectForTarget w tg reads1 = some (k1, t1, tot1, f1) ∧
      selectForTarget w tg reads2 = some (k2, t2, tot2, f2) ∧
      t1 = t2 ∧ tot1 = tot2 ∧ f1 = f2 ∧ List.Perm k1 k2 := by
  have hq2 : ∀ r ∈ reads2, r.quals ≠ [] := fun r hr => hq r (hp.mem_iff.mpr hr)
  have hsum : (reads1.map fun r => r.seq.length).sum = (reads2.map fun r => r.seq.length).sum :=
    (hp.map _).sum_eq
  cases tg with
  | none =>
    refine ⟨reads1, 0, _, false, reads2, 0, _, false, rfl, rfl, rfl, hsum, rfl, hp⟩
  | some t =>
    by_cases ht0 : t = 0
    · subst ht0
      refine ⟨reads1, 0, _, false, reads2, 0, _, false, ?_, ?_, rfl, hsum, rfl, hp⟩
      · simp [selectForTarget]
      · simp [selectForTarget]
    · by_cases htt : (reads1.map fun r => r.seq.length).sum < t
      · refine ⟨reads1, 0, _, true, reads2, 0, _, true, ?_, ?_, rfl, hsum, rfl, hp⟩
        · simp only [selectForTarget]
          rw [if_neg ht0, if_pos htt]
        · simp only [selectForTarget]
          rw [if_neg ht0, if_pos (by omega : (reads2.map fun r => r.seq.length).sum < t)]
      · have hsorted_eq : sortedKeys w reads1 = sortedKeys w reads2 := by
          apply List.eq_of_perm_of_sorted
            (r := keyGeR)
          · exact (List.perm_insertionSort keyGeR _).trans
              (((hp.map (readKey w))).trans (List.perm_insertionSort keyGeR _).symm)
          · exact List.sorted_insertionSort keyGeR _
          · exact List.sorted_insertionSort keyGeR _
        have h1 : selectForTarget w (some t) reads1 =
            some (reads1.filter
                (fun r => decide (r.name ∈ (selWalk t (sortedKeys w reads1) 0 0 []).2.1)),
              (selWalk t (sortedKeys w reads1) 0 0 []).1,
              (selWalk t (sortedKeys w reads1) 0 0 []).2.2, false) := by
          simp only [selectForTarget]
          rw [if_neg ht0, if_neg htt, mapM_keys w reads1 hq hw]
          rfl
        have h2 : selectForTarget w (some t) reads2 =
            some (reads2.filter
                (fun r => decide (r.name ∈ (selWalk t (sortedKeys w reads2) 0 0 []).2.1)),
              (selWalk t (sortedKeys w reads2) 0 0 []).1,
              (selWalk t (sortedKeys w reads2) 0 0 []).2.2, false) := by
          simp only [selectForTarget]
          rw [if_neg ht0, if_neg (by omega : ¬ (reads2.map fun r => r.seq.length).sum < t),
            mapM_keys w reads2 hq2 hw]
          rfl
        refine ⟨_, _, _, _, _, _, _, _, h1, h2, ?_, ?_, rfl, ?_⟩
        · rw [hsorted_eq]
        · rw [hsorted_eq]
        · rw [hsorted_eq]
          exact hp.filter _

lemma selectForTarget_kept_by_name (w : Nat) (tg : Option Nat) (reads kept : List FRead)
    (thr : ℚ) (tot : Nat) (flag : Bool)
    (hsel : selectForTarget w tg reads = some (kept, thr, tot, flag))
    (r r' : FRead) (hr : r ∈ reads) (hr' : r' ∈ reads) (hname : r'.name = r.name)
    (hkept : r ∈ kept) : r' ∈ kept := by
  cases tg with
  | none =>
    simp only [selectForTarget, Option.some.injEq, Prod.mk.injEq] at hsel
    rw [← hsel.1]
    exact hr'
  | some t =>
    by_cases ht0 : t = 0
    · subst ht0
      simp only [selectForTarget, if_true, reduceIte, Option.some.injEq, Prod.mk.injEq] at hsel
      rw [← hsel.1]
      exact hr'
    · by_cases htt : (reads.map fun x => x.seq.length).sum < t
      · simp only [selectForTarget] at hsel
        rw [if_neg ht0, if_pos htt] at hsel
        simp only [Option.some.injEq, Prod.mk.injEq] at hsel
        rw [← hsel.1]
        exact hr'
      · simp only [selectForTarget] at hsel
        rw [if_neg ht0, if_neg htt] at hsel
        cases hmm : reads.mapM (min_window_qual_and_length w) with
        | none =>
          rw [hmm] at hsel
          exact absurd hsel (by simp)
        | some keys =>
          rw [hmm] at hsel
          simp only [Option.some.injEq, Prod.mk.injEq] at hsel
          obtain ⟨hkeq, -, -, -⟩ := hsel
          rw [← hkeq] at hkept ⊢
          rw [List.mem_filter] at hkept ⊢
          refine ⟨hr', ?_⟩
          rw [decide_eq_true_iff] at hkept ⊢
          rw [hname]
          exact hkept.2

lemma sorted_getLast_isLexLast : ∀ (l : List HNode), List.Sorted tagLe l →
    ∀ x, l.getLast? = some x → x ∈ l ∧ ∀ d ∈ l, lexLe d.tag x.tag = true := by
  intro l
  induction l with
  | nil =>
    intro _ x hx
    simp at hx
  | cons a rest ih =>
    intro hs x hx
    cases rest with
    | nil =>
      simp at hx
      subst hx
      refine ⟨by simp, ?_⟩
      intro d hd
      simp at hd
      subst hd
      exact lexLe_refl _
    | cons b rest2 =>
      rw [List.getLast?_cons_cons] at hx
      rw [List.sorted_cons] at hs
      obtain ⟨hmem, hall⟩ := ih hs.2 x hx
      refine ⟨List.mem_cons_of_mem a hmem, ?_⟩
      intro d hd
      rcases List.mem_cons.mp hd with hda | hdtail
      · subst hda
        exact hs.1 x hmem
      · exact hall d hdtail

lemma filter_sorted_getLast (names : List HNode) (p : HNode → Bool) (x : HNode)
    (hx : ((List.insertionSort tagLe (fastqCandidates names)).filter p).getLast? = some x) :
    x ∈ (fastqCandidates names).filter p ∧
      ∀ d ∈ (fastqCandidates names).filter p, lexLe d.tag x.tag = true := by
  have hsorted : List.Sorted tagLe
      ((List.insertionSort tagLe (fastqCandidates names)).filter p) :=
    (List.sorted_insertionSort tagLe (fastqCandidates names)).filter p
  have hperm : List.Perm ((List.insertionSort tagLe (fastqCandidates names)).filter p)
      ((fastqCandidates names).filter p) :=
    (List.perm_insertionSort tagLe (fastqCandidates names)).filter p
  obtain ⟨hmem, hall⟩ := sorted_getLast_isLexLast _ hsorted x hx
  exact ⟨hperm.mem_iff.mp hmem, fun d hd => hall d (hperm.mem_iff.mpr hd)⟩

lemma cand_sorted_getLast (names : List HNode) (x : HNode)
    (hx : (List.insertionSort tagLe (fastqCandidates names)).getLast? = some x) :
    x ∈ fastqCandidates names ∧ ∀ d ∈ fastqCandidates names, lexLe d.tag x.tag = true := by
  have hsorted := List.sorted_insertionSort tagLe (fastqCandidates names)
  have hperm := List.perm_insertionSort tagLe (fastqCandidates names)
  obtain ⟨hmem, hall⟩ := sorted_getLast_isLexLast _ hsorted x hx
  exact ⟨hperm.mem_iff.mp hmem, fun d hd => hall d (hperm.mem_iff.mpr hd)⟩

lemma getLast?_none_eq_nil {α : Type} (l : List α) (h : l.getLast? = none) : l = [] := by
  by_contra hne
  have hs := List.getLast?_isSome.mpr hne
  rw [h] at hs
  simp at hs

lemma perm_nil_iff {α : Type} {l1 l2 : List α} (h : List.Perm l1 l2) : l1 = [] ↔ l2 = [] := by
  constructor
  · intro h1
    subst h1
    exact h.symm.eq_nil
  · intro h2
    subst h2
    exact h.eq_nil

lemma get_mean_score_eq (n : HNode) (h : n.qline ≠ []) :
    get_mean_score n = some (get_mean_qscore n.qline) := by
  unfold get_mean_score get_mean_qscore
  rw [if_neg h, if_neg h]

lemma get_best_spec (names : List HNode) (hq : ∀ c ∈ names, c.qline ≠ []) :
    ∃ res, get_best_fastq_hdf5_location names = some res ∧
      (groupTwoD names ≠ [] → ∃ c, res = some c ∧ isLexLast c (groupTwoD names)) ∧
      (groupTwoD names = [] → groupTemplate names ≠ [] → groupComplement names ≠ [] →
        ∃ ct cc, isLexLast ct (groupTemplate names) ∧ isLexLast cc (groupComplement names) ∧
          (get_mean_qscore cc.qline < get_mean_qscore ct.qline → res = some ct) ∧
          (get_mean_qscore ct.qline < get_mean_qscore cc.qline → res = some cc) ∧
          (get_mean_qscore ct.qline = get_mean_qscore cc.qline → res = some ct)) ∧
      (groupTwoD names = [] → groupTemplate names ≠ [] → groupComplement names = [] →
        ∃ c, res = some c ∧ isLexLast c (groupTemplate names)) ∧
      (groupTwoD names = [] → groupTemplate names = [] → groupComplement names ≠ [] →
        ∃ c, res = some c ∧ isLexLast c (groupComplement names)) ∧
      (groupTwoD names = [] → groupTemplate names = [] → groupComplement names = [] →
        fastqCandidates names ≠ [] →
        ∃ c, res = some c ∧ isLexLast c (fastqCandidates names)) ∧
      (res = none ↔ fastqCandidates names = []) := by
  simp only [get_best_fastq_hdf5_location]
  set bl := List.insertionSort tagLe (fastqCandidates names) with hbl
  set fl2 := bl.filter fun x => containsSub (upper x.tag) twoDCodes with hfl2
  set flt := bl.filter fun x => containsSub (upper x.tag) templateCodes with hflt
  set flc := bl.filter fun x => containsSub (upper x.tag) complementCodes with hflc
  have hpcand : List.Perm bl (fastqCandidates names) :=
    List.perm_insertionSort tagLe (fastqCandidates names)
  have hp2 : List.Perm fl2 (groupTwoD names) := hpcand.filter _
  have hpt : List.Perm flt (groupTemplate names) := hpcand.filter _
  have hpc : List.Perm flc (groupComplement names) := hpcand.filter _
  have hmemq : ∀ (l : List HNode) (x : HNode), List.Sublist l bl → x ∈ l → x.qline ≠ [] := by
    intro l x hsub hx
    have h1 : x ∈ bl := hsub.subset hx
    have h2 : x ∈ fastqCandidates names := hpcand.mem_iff.mp h1
    have h3 : x ∈ names := (List.filter_sublist names).subset h2
    exact hq x h3
  cases h2d : fl2.getLast? with
  | some x =>
    obtain ⟨hxmem, hxall⟩ := filter_sorted_getLast names _ x h2d
    have h2ne : groupTwoD names ≠ [] := List.ne_nil_of_mem hxmem
    have hcne : fastqCandidates names ≠ [] :=
      List.ne_nil_of_mem ((List.filter_sublist (fastqCandidates names)).subset hxmem)
    refine ⟨some x, rfl, ?_, ?_, ?_, ?_, ?_, ?_⟩
    · intro _
      exact ⟨x, rfl, hxmem, hxall⟩
    · intro h
      exact absurd h h2ne
    · intro h
      exact absurd h h2ne
    · intro h
      exact absurd h h2ne
    · intro h
      exact absurd h h2ne
    · constructor
      · intro h
        simp at h
      · intro h
        exact absurd h hcne
  | none =>
    have h2nil : groupTwoD names = [] := (perm_nil_iff hp2).mp (getLast?_none_eq_nil fl2 h2d)
    cases htl : flt.getLast? with
    | some tl =>
      obtain ⟨htmem, htall⟩ := filter_sorted_getLast names _ tl htl
      have htne : groupTemplate names ≠ [] := List.ne_nil_of_mem htmem
      have hcne : fastqCandidates names ≠ [] :=
        List.ne_nil_of_mem ((List.filter_sublist (fastqCandidates names)).subset htmem)
      have htq : tl.qline ≠ [] :=
        hq tl ((List.filter_sublist names).subset
          ((List.filter_sublist (fastqCandidates names)).subset htmem))
      cases hcl : flc.getLast? with
      | some cl =>
        obtain ⟨hcmem, hcall⟩ := filter_sorted_getLast names _ cl hcl
        have hcgne : groupComplement names ≠ [] := List.ne_nil_of_mem hcmem
        have hcq : cl.qline ≠ [] :=
          hq cl ((List.filter_sublist names).subset
            ((List.filter_sublist (fastqCandidates names)).subset hcmem))
        refine ⟨some (if get_mean_qscore cl.qline ≤ get_mean_qscore tl.qline then tl else cl),
          ?_, ?_, ?_, ?_, ?_, ?_, ?_⟩
        · dsimp only
          rw [get_mean_score_eq tl htq, get_mean_score_eq cl hcq]
        · intro h
          exact absurd h2nil h
        · intro _ _ _
          refine ⟨tl, cl, ⟨htmem, htall⟩, ⟨hcmem, hcall⟩, ?_, ?_, ?_⟩
          · intro h
            rw [if_pos (le_of_lt h)]
          · intro h
            rw [if_neg (not_le.mpr h)]
          · intro h
            rw [if_pos (le_of_eq h.symm)]
        · intro _ _ h
          exact absurd h hcgne
        · intro _ h
          exact absurd h htne
        · intro _ h
          exact absurd h htne
        · constructor
          · intro h
            simp at h
          · intro h
            exact absurd h hcne
      | none =>
        have hcnil : groupComplement names = [] :=
          (perm_nil_iff hpc).mp (getLast?_none_eq_nil flc hcl)
        refine ⟨some tl, rfl, ?_, ?_, ?_, ?_, ?_, ?_⟩
        · intro h
          exact absurd h2nil h
        · intro _ _ h
          exact absurd hcnil h
        · intro _ _ _
          exact ⟨tl, rfl, htmem, htall⟩
        · intro _ h
          exact absurd h htne
        · intro _ h
          exact absurd h htne
        · constructor
          · intro h
            simp at h
          · intro h
            exact absurd h hcne
    | none =>
      have htnil : groupTemplate names = [] :=
        (perm_nil_iff hpt).mp (getLast?_none_eq_nil flt htl)
      cases hcl : flc.getLast? with
      | some cl =>
        obtain ⟨hcmem, hcall⟩ := filter_sorted_getLast names _ cl hcl
        have hcgne : groupComplement names ≠ [] := List.ne_nil_of_mem hcmem
        have hcne : fastqCandidates names ≠ [] :=
          List.ne_nil_of_mem ((List.filter_sublist (fastqCandidates names)).subset hcmem)
        refine ⟨some cl, rfl, ?_, ?_, ?_, ?_, ?_, ?_⟩
        · intro h
          exact absurd h2nil h
        · intro _ h
          exact absurd htnil h
        · intro _ h
          exact absurd htnil h
        · intro _ _ _
          exact ⟨cl, rfl, hcmem, hcall⟩
        · intro _ _ h
          exact absurd h hcgne
        · constructor
          · intro h
            simp at h
          · intro h
            exact absurd h hcne
      | none =>
        have hcnil : groupComplement names = [] :=
          (perm_nil_iff hpc).mp (getLast?_none_eq_nil flc hcl)
        cases hbl' : bl.getLast? with
        | some x =>
          obtain ⟨hxmem, hxall⟩ := cand_sorted_getLast names x hbl'
          have hcne : fastqCandidates names ≠ [] := List.ne_nil_of_mem hxmem
          refine ⟨some x, rfl, ?_, ?_, ?_, ?_, ?_, ?_⟩
          · intro h
            exact absurd h2nil h
          · intro _ h
            exact absurd htnil h
          · intro _ h
            exact absurd htnil h
          · intro _ _ h
            exact absurd hcnil h
          · intro _ _ _ _
            exact ⟨x, rfl, hxmem, hxall⟩
          · constructor
            · intro h
              simp at h
            · intro h
              exact absurd h hcne
        | none =>
          have hblnil : fastqCandidates names = [] :=
            (perm_nil_iff hpcand).mp (getLast?_none_eq_nil bl hbl')
          refine ⟨none, rfl, ?_, ?_, ?_, ?_, ?_, ?_⟩
          · intro h
            exact absurd h2nil h
          · intro _ h
            exact absurd htnil h
          · intro _ h
            exact absurd htnil h
          · intro _ _ h
            exact absurd hcnil h
          · intro _ _ _ h
            exact absurd hblnil h
          · exact ⟨fun _ => hblnil, fun _ => rfl⟩


lemma readKey_readA : readKey 50 readA = ⟨30, 100, [97]⟩ := by
  simp only [readKey, readA]
  rw [gmwq_replicate 100 63 50 (by norm_num) (by norm_num)]
  simp [SelKey.mk.injEq]
  norm_num

lemma readKey_readB : readKey 50 readB = ⟨20, 100, [98]⟩ := by
  simp only [readKey, readB]
  rw [gmwq_replicate 100 53 50 (by norm_num) (by norm_num)]
  simp [SelKey.mk.injEq]
  norm_num

lemma readKey_readC : readKey 50 readC = ⟨10, 100, [99]⟩ := by
  simp only [readKey, readC]
  rw [gmwq_replicate 100 43 50 (by norm_num) (by norm_num)]
  simp [SelKey.mk.injEq]
  norm_num

lemma sort_spec_instance :
    List.insertionSort keyGeR [⟨30, 100, [97]⟩, ⟨20, 100, [98]⟩, ⟨10, 100, [99]⟩] =
      [⟨30, 100, [97]⟩, ⟨20, 100, [98]⟩, ⟨10, 100, [99]⟩] := by
  have h1 : keyGeR ⟨20, 100, [98]⟩ ⟨10, 100, [99]⟩ := by
    unfold keyGeR keyGe
    norm_num
  have h2 : keyGeR ⟨30, 100, [97]⟩ ⟨20, 100, [98]⟩ := by
    unfold keyGeR keyGe
    norm_num
  simp only [List.insertionSort, List.orderedInsert, if_pos h1, if_pos h2]

lemma walk_spec_instance :
    selWalk 150 [⟨30, 100, [97]⟩, ⟨20, 100, [98]⟩, ⟨10, 100, [99]⟩] 0 0 [] =
      (20, [[98], [97]], 200) := by
  simp only [selWalk]
  norm_num

lemma select_spec_instance :
    selectForTarget 50 (some 150) [readA, readB, readC] =
      some ([readA, readB], 20, 200, false) := by
  have htotal : ([readA, readB, readC].map fun r => r.seq.length).sum = 300 := by
    simp [readA, readB, readC]
  have hmaps : List.map (readKey 50) [readA, readB, readC] =
      [⟨30, 100, [97]⟩, ⟨20, 100, [98]⟩, ⟨10, 100, [99]⟩] := by
    simp [readKey_readA, readKey_readB, readKey_readC]
  have hmm : [readA, readB, readC].mapM (min_window_qual_and_length 50) =
      some [⟨30, 100, [97]⟩, ⟨20, 100, [98]⟩, ⟨10, 100, [99]⟩] := by
    rw [mapM_keys 50 [readA, readB, readC] (by decide) (by norm_num), hmaps]
  simp only [selectForTarget]
  rw [if_neg (by norm_num : ¬ (150 : Nat) = 0), if_neg (by rw [htotal]; norm_num), hmm]
  dsimp only
  rw [sort_spec_instance, walk_spec_instance]
  simp [readA, readB, readC]


lemma readKey_dupRead1 : readKey 1 dupRead1 = ⟨10, 2, [97]⟩ := by
  simp only [readKey, dupRead1]
  rw [show ([43, 43] : List Nat) = List.replicate 2 43 from rfl,
    gmwq_replicate 2 43 1 (by norm_num) (by norm_num)]
  simp [SelKey.mk.injEq]
  norm_num

lemma readKey_dupRead2 : readKey 1 dupRead2 = ⟨0, 1, [97]⟩ := by
  simp only [readKey, dupRead2]
  rw [show ([33] : List Nat) = List.replicate 1 33 from rfl,
    gmwq_replicate 1 33 1 (by norm_num) (by norm_num)]
  simp [SelKey.mk.injEq]

lemma sort_dup : List.insertionSort keyGeR [⟨10, 2, [97]⟩, ⟨0, 1, [97]⟩] =
    [⟨10, 2, [97]⟩, ⟨0, 1, [97]⟩] := by
  have h1 : keyGeR ⟨10, 2, [97]⟩ ⟨0, 1, [97]⟩ := by
    unfold keyGeR keyGe
    norm_num
  simp only [List.insertionSort, List.orderedInsert, if_pos h1]

lemma sortedKeys_dup : sortedKeys 1 [dupRead1, dupRead2] = [⟨10, 2, [97]⟩, ⟨0, 1, [97]⟩] := by
  unfold sortedKeys
  rw [show List.map (readKey 1) [dupRead1, dupRead2] = [⟨10, 2, [97]⟩, ⟨0, 1, [97]⟩] by
    simp [readKey_dupRead1, readKey_dupRead2]]
  exact sort_dup

lemma walk_dup : selWalk 1 [⟨10, 2, [97]⟩, ⟨0, 1, [97]⟩] 0 0 [] = (10, [[97]], 2) := by
  simp only [selWalk]
  norm_num

lemma select_dup : selectForTarget 1 (some 1) [dupRead1, dupRead2] =
    some ([dupRead1, dupRead2], 10, 2, false) := by
  have hmm : [dupRead1, dupRead2].mapM (min_window_qual_and_length 1) =
      some [⟨10, 2, [97]⟩, ⟨0, 1, [97]⟩] := by
    rw [mapM_keys 1 [dupRead1, dupRead2] (by decide) (by norm_num)]
    simp [readKey_dupRead1, readKey_dupRead2]
  simp only [selectForTarget]
  rw [if_neg (by norm_num : ¬ (1 : Nat) = 0),
    if_neg (by simp [dupRead1, dupRead2] : ¬ ([dupRead1, dupRead2].map fun r => r.seq.length).sum < 1),
    hmm]
  dsimp only
  rw [sort_dup, walk_dup]
  simp [dupRead1, dupRead2]


lemma gmwq_C6_eval : get_min_window_qscore [33, 43, 33] 2 = some 5 := by
  norm_num [get_min_window_qscore, qscores, decode, intMean, slideMin,
    List.getD_cons_succ, List.getD_cons_zero]
  simp

lemma mean_C6_eval : get_mean_qscore [33, 43, 33] = 10 / 3 := by
  norm_num [get_mean_qscore, qscores, decode, intMean]
  simp

lemma get_best_cex_eval : get_best_fastq_hdf5_location [tmplNode, compNode] = none := by
  decide


/-- C1 (corrected): as stated the claim fails when two filtered reads
share an identifier, because the selector keeps reads by name membership
(`good_read_names`), not by selection key.  Concretely, with two reads
both named `a` (`dupRead1`, `dupRead2`), target 1 and window 1, the code
keeps both reads although only `dupRead1`'s key lies in the shortest
prefix of the descending-sorted key list whose cumulative length exceeds
the target, so the kept set differs from the claimed prefix filter. -/
theorem claim_C1_counterexample :
    selectForTarget 1 (some 1) [dupRead1, dupRead2] =
      some ([dupRead1, dupRead2], 10, 2, false) ∧
    cumLens (sortedKeys 1 [dupRead1, dupRead2]) 0 ≤ 1 ∧
    1 < cumLens (sortedKeys 1 [dupRead1, dupRead2]) 1 ∧
    readKey 1 dupRead2 ∉ (sortedKeys 1 [dupRead1, dupRead2]).take 1 ∧
    dupRead2 ∈ ([dupRead1, dupRead2] : List FRead) ∧
    [dupRead1, dupRead2] ≠
      List.filter (fun r => decide (readKey 1 r ∈ (sortedKeys 1 [dupRead1, dupRead2]).take 1))
        [dupRead1, dupRead2] := by
  have htake : (sortedKeys 1 [dupRead1, dupRead2]).take 1 = [⟨10, 2, [97]⟩] := by
    rw [sortedKeys_dup]
    rfl
  refine ⟨select_dup, ?_, ?_, ?_, by simp, ?_⟩
  · rw [sortedKeys_dup]
    simp [cumLens]
  · rw [sortedKeys_dup]
    simp [cumLens]
  · rw [htake, readKey_dupRead2]
    simp [SelKey.mk.injEq]
  · rw [htake]
    simp only [List.filter_cons, List.filter_nil]
    rw [readKey_dupRead1, readKey_dupRead2]
    norm_num [SelKey.mk.injEq]

/-- C1 (amended): for filtered reads with pairwise-distinct identifiers,
non-empty quality strings, positive window size and a positive target
not exceeding the total filtered bases, `selectForTarget` keeps exactly
the reads whose selection key lies in the shortest prefix of the
descending-sorted key list whose cumulative length strictly exceeds the
target (the whole list when no prefix exceeds it, i.e. when the target
equals the total), in original input order, and the reported threshold
is the `minWindowScore` of the last key of that prefix; on the
specification's concrete instance (lengths 100/100/100, scores 30/20/10,
target 150) the two best reads are kept and the threshold is 20. -/
theorem claim_C1 (w t : Nat) (reads : List FRead) (hw : 0 < w) (ht : 0 < t)
    (hq : ∀ r ∈ reads, r.quals ≠ [])
    (hnd : (reads.map FRead.name).Nodup)
    (htot : t ≤ (reads.map fun r => r.seq.length).sum) :
    (∃ kept thr tot, selectForTarget w (some t) reads = some (kept, thr, tot, false) ∧
      ∃ c, c ≤ reads.length ∧
        (∀ j, j < c → cumLens (sortedKeys w reads) j ≤ t) ∧
        (t < cumLens (sortedKeys w reads) c ∨
          (c = reads.length ∧ cumLens (sortedKeys w reads) c ≤ t)) ∧
        kept = reads.filter (fun r => decide (readKey w r ∈ (sortedKeys w reads).take c)) ∧
        ∃ lastK, ((sortedKeys w reads).take c).getLast? = some lastK ∧ thr = lastK.score) ∧
    selectForTarget 50 (some 150) [readA, readB, readC] =
      some ([readA, readB], 20, 200, false) := by
  refine ⟨?_, select_spec_instance⟩
  obtain ⟨kept, thr, tot, hsel, c, h1, h2, h3, h4, h5, -⟩ :=
    selectForTarget_spec w t reads hw ht hq hnd htot
  exact ⟨kept, thr, tot, hsel, c, h1, h2, h3, h4, h5⟩

/-- Witness for C1's amended theorem at the specification's concrete
instance. -/
theorem claim_C1_witness :
    (0 < 50 ∧ 0 < 150 ∧ (∀ r ∈ [readA, readB, readC], r.quals ≠ []) ∧
      ([readA, readB, readC].map FRead.name).Nodup ∧
      150 ≤ ([readA, readB, readC].map fun r => r.seq.length).sum) ∧
    ∃ kept thr tot, selectForTarget 50 (some 150) [readA, readB, readC] =
      some (kept, thr, tot, false) := by
  refine ⟨⟨by norm_num, by norm_num, by decide, by decide, by decide⟩, ?_⟩
  obtain ⟨⟨kept, thr, tot, hsel, -⟩, -⟩ :=
    claim_C1 50 150 [readA, readB, readC] (by norm_num) (by norm_num) (by decide)
      (by decide) (by decide)
  exact ⟨kept, thr, tot, hsel⟩


/-- C2 (corrected): the resolver does not always return a candidate —
when both a Template and a Complement candidate exist but a quality
line is empty, `statistics.mean` raises (modelled as `none`), so the
claimed precedence fails on candidates with empty quality strings. -/
theorem claim_C2_counterexample :
    get_best_fastq_hdf5_location [tmplNode, compNode] = none ∧
    get_best_fastq_hdf5_location [tmplNode, compNode] ≠ some (some tmplNode) ∧
    get_best_fastq_hdf5_location [tmplNode, compNode] ≠ some (some compNode) ∧
    groupTwoD [tmplNode, compNode] = [] ∧
    groupTemplate [tmplNode, compNode] ≠ [] ∧
    groupComplement [tmplNode, compNode] ≠ [] := by
  decide

/-- C2 (amended): for candidates whose quality lines are all non-empty,
`get_best_fastq_hdf5_location` follows the fixed precedence — the
lexicographically-last `TwoD` candidate if any; otherwise, when both
`Template` and `Complement` groups are non-empty, whichever of their
lexicographically-last members has the higher mean decoded quality
(ties favour Template); otherwise the lexicographically-last Template,
else Complement, else any remaining FASTQ candidate — and it returns
Python `None` exactly when no FASTQ candidate exists. -/
theorem claim_C2 (names : List HNode) (hq : ∀ c ∈ names, c.qline ≠ []) :
    ∃ res, get_best_fastq_hdf5_location names = some res ∧
      (groupTwoD names ≠ [] → ∃ c, res = some c ∧ isLexLast c (groupTwoD names)) ∧
      (groupTwoD names = [] → groupTemplate names ≠ [] → groupComplement names ≠ [] →
        ∃ ct cc, isLexLast ct (groupTemplate names) ∧ isLexLast cc (groupComplement names) ∧
          (get_mean_qscore cc.qline < get_mean_qscore ct.qline → res = some ct) ∧
          (get_mean_qscore ct.qline < get_mean_qscore cc.qline → res = some cc) ∧
          (get_mean_qscore ct.qline = get_mean_qscore cc.qline → res = some ct)) ∧
      (groupTwoD names = [] → groupTemplate names ≠ [] → groupComplement names = [] →
        ∃ c, res = some c ∧ isLexLast c (groupTemplate names)) ∧
      (groupTwoD names = [] → groupTemplate names = [] → groupComplement names ≠ [] →
        ∃ c, res = some c ∧ isLexLast c (groupComplement names)) ∧
      (groupTwoD names = [] → groupTemplate names = [] → groupComplement names = [] →
        fastqCandidates names ≠ [] →
        ∃ c, res = some c ∧ isLexLast c (fastqCandidates names)) ∧
      (res = none ↔ fastqCandidates names = []) :=
  get_best_spec names hq

/-- Witness for C2's amended theorem on a single Template candidate. -/
theorem claim_C2_witness :
    (∀ c ∈ [tmplNodeW], c.qline ≠ []) ∧
    ∃ res, get_best_fastq_hdf5_location [tmplNodeW] = some res := by
  refine ⟨by decide, ?_⟩
  obtain ⟨res, hres, -⟩ := claim_C2 [tmplNodeW] (by decide)
  exact ⟨res, hres⟩

/-- C3 (confirmed): for a non-empty quality string and positive window
size, `get_min_window_qscore` returns, under exact arithmetic, the
minimum over all contiguous windows of length `min(windowSize, length)`
of the window's arithmetic mean decoded score, and when
`windowSize >= length` the result is the overall mean. -/
theorem claim_C3 (quals : List Nat) (w : Nat) (hq : quals ≠ []) (hw : 0 < w) :
    ∃ s, get_min_window_qscore quals w = some s ∧
      (∀ i, i + min w quals.length ≤ quals.length →
        s ≤ winMean (qscores quals) i (min w quals.length)) ∧
      (∃ i, i + min w quals.length ≤ quals.length ∧
        s = winMean (qscores quals) i (min w quals.length)) ∧
      (quals.length ≤ w → s = get_mean_qscore quals) := by
  obtain ⟨s, hs, hle, hex⟩ := gmwq_eq_min quals w hq hw
  refine ⟨s, hs, hle, hex, ?_⟩
  intro hwlen
  obtain ⟨i, hi, hival⟩ := hex
  have hm : min w quals.length = quals.length := by omega
  rw [hm] at hi hival
  have hi0 : i = 0 := by omega
  subst hi0
  rw [get_mean_qscore_eq_winMean quals hq]
  exact hival

/-- Witness for C3 on the two-symbol string with a window larger than
the string. -/
theorem claim_C3_witness :
    (([40, 50] : List Nat) ≠ [] ∧ 0 < 3) ∧
    ∃ s, get_min_window_qscore [40, 50] 3 = some s := by
  refine ⟨⟨by simp, by norm_num⟩, ?_⟩
  obtain ⟨s, hs, -⟩ := claim_C3 [40, 50] 3 (by simp) (by norm_num)
  exact ⟨s, hs⟩

/-- C4 (corrected): the claim fails — `check_filters` never checks that
the quality string matches the sequence; a read with non-empty sequence
`ACGT` and an empty quality string passes with `(true, 4)` when no
threshold is set, instead of being rejected with `(false, 0)`. -/
theorem claim_C4_counterexample :
    check_filters [65, 67, 71, 84] [] 0 0 0 50 = some (true, 4) ∧
    check_filters [65, 67, 71, 84] [] 0 0 0 50 ≠ some (false, 0) := by
  constructor
  · simp [check_filters]
  · simp [check_filters]

/-- C4 (amended): `check_filters` rejects with `(false, 0)` without
raising exactly when the sequence is empty, for every configuration; a
quality/sequence length mismatch is not detected. -/
theorem claim_C4 (seq quals : List Nat) (min_length : Nat) (min_mean_qual min_qual_window : ℚ)
    (window_size : Nat) (h : seq = []) :
    check_filters seq quals min_length min_mean_qual min_qual_window window_size =
      some (false, 0) := by
  subst h
  simp [check_filters]

/-- Witness for C4's amended theorem on an empty-sequence read. -/
theorem claim_C4_witness :
    ([] : List Nat) = [] ∧ check_filters [] [40] 3 1 1 50 = some (false, 0) :=
  ⟨rfl, claim_C4 [] [40] 3 1 1 50 rfl⟩

/-- C5 (corrected): the claim fails — on the empty quality string the
Window Scanner raises `StatisticsError` (modelled as `none`) instead of
returning 0; only the whole-string mean function returns 0 for the
empty string. -/
theorem claim_C5_counterexample :
    get_min_window_qscore [] 50 = none ∧ get_min_window_qscore [] 50 ≠ some 0 := by
  constructor
  · simp [get_min_window_qscore, qscores]
  · simp [get_min_window_qscore, qscores]

/-- C5 (amended): for the empty quality string and any window size the
Window Scanner raises (modelled as `none`) rather than returning 0,
while `get_mean_qscore` does return 0 for the empty string without
raising. -/
theorem claim_C5 :
    (∀ w, get_min_window_qscore [] w = none) ∧ get_mean_qscore [] = 0 := by
  constructor
  · intro w
    simp [get_min_window_qscore, qscores]
  · simp [get_mean_qscore]

/-- C6 (corrected): the claim fails — the minimum window mean can
exceed the overall mean when the windows do not tile the string: for
quality symbols `[33, 43, 33]` (scores `[0, 10, 0]`) and window size 2
the scanner returns 5, strictly above the overall mean 10/3. -/
theorem claim_C6_counterexample :
    get_min_window_qscore [33, 43, 33] 2 = some 5 ∧
    get_mean_qscore [33, 43, 33] = 10 / 3 ∧ ¬ ((5 : ℚ) ≤ 10 / 3) :=
  ⟨gmwq_C6_eval, mean_C6_eval, by norm_num⟩

/-- C6 (amended): for a non-empty quality string and positive window
size such that the effective window length `min(windowSize, length)`
divides the string length, the scanner's result never exceeds the
overall mean. -/
theorem claim_C6 (quals : List Nat) (w : Nat) (hq : quals ≠ []) (hw : 0 < w)
    (hdvd : min w quals.length ∣ quals.length) :
    ∃ s, get_min_window_qscore quals w = some s ∧ s ≤ get_mean_qscore quals :=
  gmwq_le_mean_of_dvd quals w hq hw hdvd

/-- Witness for C6's amended theorem with window size 1. -/
theorem claim_C6_witness :
    (([33, 43] : List Nat) ≠ [] ∧ 0 < 1 ∧ min 1 ([33, 43] : List Nat).length ∣ ([33, 43] : List Nat).length) ∧
    ∃ s, get_min_window_qscore [33, 43] 1 = some s ∧ s ≤ get_mean_qscore [33, 43] := by
  refine ⟨⟨by simp, by norm_num, by decide⟩, ?_⟩
  exact claim_C6 [33, 43] 1 (by simp) (by norm_num) (by decide)


/-- C7 (confirmed): with `targetBases` unset or 0 the selector returns
the input unchanged, and when the total post-filter bases fall strictly
short of the target it also returns the input unchanged and reports the
target as unreachable. -/
theorem claim_C7 (w : Nat) (reads : List FRead) :
    selectForTarget w none reads =
      some (reads, 0, (reads.map fun r => r.seq.length).sum, false) ∧
    selectForTarget w (some 0) reads =
      some (reads, 0, (reads.map fun r => r.seq.length).sum, false) ∧
    ∀ t, (reads.map fun r => r.seq.length).sum < t →
      selectForTarget w (some t) reads =
        some (reads, 0, (reads.map fun r => r.seq.length).sum, true) :=
  selectForTarget_noop w reads

/-- Witness for C7 in the unreachable-target case. -/
theorem claim_C7_witness :
    (([dupRead1].map fun r => r.seq.length).sum < 99) ∧
    selectForTarget 1 (some 99) [dupRead1] =
      some ([dupRead1], 0, ([dupRead1].map fun r => r.seq.length).sum, true) :=
  ⟨by decide, (claim_C7 1 [dupRead1]).2.2 99 (by decide)⟩

/-- C8 (confirmed): for filtered reads with distinct identifiers and
non-empty quality strings, running the selector on any permutation of
the read list succeeds and yields the same reported threshold, the same
reported total, the same flag, and the same kept set (a permutation of
the other run's kept list). -/
theorem claim_C8 (w : Nat) (tg : Option Nat) (reads1 reads2 : List FRead)
    (hp : List.Perm reads1 reads2) (hw : 0 < w)
    (hq : ∀ r ∈ reads1, r.quals ≠ [])
    (hnd : (reads1.map FRead.name).Nodup) :
    ∃ k1 t1 tot1 f1 k2 t2 tot2 f2,
      selectForTarget w tg reads1 = some (k1, t1, tot1, f1) ∧
      selectForTarget w tg reads2 = some (k2, t2, tot2, f2) ∧
      t1 = t2 ∧ tot1 = tot2 ∧ f1 = f2 ∧ List.Perm k1 k2 :=
  selectForTarget_perm w tg reads1 reads2 hp hw hq

/-- Witness for C8 on a two-read swap. -/
theorem claim_C8_witness :
    (List.Perm [readA, readB] [readB, readA] ∧ 0 < 50 ∧
      (∀ r ∈ [readA, readB], r.quals ≠ []) ∧ ([readA, readB].map FRead.name).Nodup) ∧
    ∃ k1 t1 tot1 f1 k2 t2 tot2 f2,
      selectForTarget 50 (some 150) [readA, readB] = some (k1, t1, tot1, f1) ∧
      selectForTarget 50 (some 150) [readB, readA] = some (k2, t2, tot2, f2) ∧
      t1 = t2 ∧ tot1 = tot2 ∧ f1 = f2 ∧ List.Perm k1 k2 :=
  ⟨⟨List.Perm.swap readB readA [], by norm_num, by decide, by decide⟩,
    claim_C8 50 (some 150) [readA, readB] [readB, readA] (List.Perm.swap readB readA [])
      (by norm_num) (by decide) (by decide)⟩

/-- C9 (confirmed): a read with a non-empty sequence and a matching
quality string passes `check_filters` with the all-unset configuration,
reporting its sequence length. -/
theorem claim_C9 (seq quals : List Nat) (window_size : Nat) (hs : seq ≠ [])
    (hwf : quals.length = seq.length) :
    check_filters seq quals 0 0 0 window_size = some (true, seq.length) := by
  unfold check_filters
  rw [if_neg hs]
  norm_num

/-- Witness for C9 on a one-base read. -/
theorem claim_C9_witness :
    (([65] : List Nat) ≠ [] ∧ ([40] : List Nat).length = ([65] : List Nat).length) ∧
    check_filters [65] [40] 0 0 0 50 = some (true, 1) :=
  ⟨⟨by simp, by simp⟩, claim_C9 [65] [40] 50 (by simp) (by simp)⟩

/-- C10 (confirmed): kept-set membership in the Target-Size Selector is
decided by identifier alone — whenever the selector succeeds, any read
sharing the identifier of a kept read is kept as well — and on the
duplicate-name input the kept reads' total bases (3) exceed the running
total at which the walk stopped (2). -/
theorem claim_C10 :
    (∀ (w : Nat) (tg : Option Nat) (reads kept : List FRead) (thr : ℚ) (tot : Nat)
      (flag : Bool) (r r' : FRead),
      selectForTarget w tg reads = some (kept, thr, tot, flag) →
      r ∈ reads → r' ∈ reads → r'.name = r.name → r ∈ kept → r' ∈ kept) ∧
    (selectForTarget 1 (some 1) [dupRead1, dupRead2] =
        some ([dupRead1, dupRead2], 10, 2, false) ∧
      ([dupRead1, dupRead2].map fun r => r.quals.length).sum = 3 ∧ 2 < 3) := by
  constructor
  · intro w tg reads kept thr tot flag r r' hsel hr hr' hname hkept
    exact selectForTarget_kept_by_name w tg reads kept thr tot flag hsel r r' hr hr' hname hkept
  · exact ⟨select_dup, by decide, by norm_num⟩

/-- Witness for C10's membership property on the duplicate-name input. -/
theorem claim_C10_witness : dupRead2 ∈ ([dupRead1, dupRead2] : List FRead) :=
  claim_C10.1 1 (some 1) [dupRead1, dupRead2] [dupRead1, dupRead2] 10 2 false
    dupRead1 dupRead2 select_dup (by simp) (by simp) rfl (by simp)

end F2F
